import Mathlib

/-!
Verification of the slot-recycling arena (`FreeList`) from
`glommio/src/free_list.rs`, shallowly embedded in Lean 4.

The embedding follows the Rust source:
* `Idx` models `Idx<T>` (the phantom type parameter is erased; equality is
  by raw value, exactly as in the source's `PartialEq`).
* `Slot` models the tagged union with variants `Full { item }` and
  `Free { next_free }`.
* `FreeList` models the arena: `first_free` chain head and the growable
  `slots` vector (a `List`).
* Operations that can panic in Rust (`alloc` on a corrupted chain,
  `dealloc` on a `Free` or out-of-range slot, `index` on a non-`Full`
  slot) are modelled as `Option`-returning functions where `none` is the
  fatal abort.
-/

set_option maxHeartbeats 1000000

/-- Models `Idx<T>`: an opaque wrapper around a raw `usize` position.
Equality compares raw values only, as in the source. -/
structure Idx where
  raw : Nat
deriving DecidableEq

/-- Models `Idx::from_raw`. -/
def Idx.from_raw (raw : Nat) : Idx := ⟨raw⟩

/-- Models `Idx::to_raw`. -/
def Idx.to_raw (i : Idx) : Nat := i.raw

/-- Models `enum Slot<T> { Free { next_free: Option<Idx<T>> }, Full { item: T } }`. -/
inductive Slot (T : Type) where
  | Free (next_free : Option Idx)
  | Full (item : T)
deriving DecidableEq

/-- Models `struct FreeList<T> { first_free: Option<Idx<T>>, slots: Vec<Slot<T>> }`. -/
structure FreeList (T : Type) where
  first_free : Option Idx
  slots : List (Slot T)
deriving DecidableEq

namespace FreeList

variable {T : Type}

/-- Models `impl Default for FreeList<T>`: empty storage, empty free chain. -/
def default : FreeList T := { first_free := none, slots := [] }

/-- Models `FreeList::alloc`. If the free chain is non-empty, the head slot is
overwritten with `Full { item }` and its `next_free` becomes the new chain
head; if the head slot is already `Full` the source panics (`none` here).
If the chain is empty, a new `Full` slot is pushed at the end of storage. -/
def alloc (fl : FreeList T) (item : T) : Option (Idx × FreeList T) :=
  match fl.first_free with
  | some idx =>
    match fl.slots[idx.to_raw]? with
    | some (Slot.Free next_free) =>
        some (idx, { first_free := next_free,
                     slots := fl.slots.set idx.to_raw (Slot.Full item) })
    | some (Slot.Full _) => none
    | none => none
  | none =>
      some (Idx.from_raw fl.slots.length,
            { first_free := none, slots := fl.slots ++ [Slot.Full item] })

/-- Models `FreeList::dealloc`. On a `Full` slot it returns the stored item,
overwrites the slot with `Free { next_free: old_first_free }` and pushes the
index onto the free chain. The source panics on a `Free` slot (double free)
or an out-of-range index; both are `none` here. -/
def dealloc (fl : FreeList T) (idx : Idx) : Option (T × FreeList T) :=
  match fl.slots[idx.to_raw]? with
  | some (Slot.Full item) =>
      some (item, { first_free := some idx,
                    slots := fl.slots.set idx.to_raw (Slot.Free fl.first_free) })
  | some (Slot.Free _) => none
  | none => none

/-- Models `impl ops::Index for FreeList<T>`: lookup of a `Full` slot's item;
the source hits `unreachable!` on a `Free` slot and a bounds-check panic out
of range, both modelled as `none`. -/
def index (fl : FreeList T) (idx : Idx) : Option T :=
  match fl.slots[idx.to_raw]? with
  | some (Slot.Full item) => some item
  | some (Slot.Free _) => none
  | none => none

/-- Run a sequence of `dealloc` calls, failing if any call panics. -/
def deallocSeq (fl : FreeList T) : List Idx → Option (FreeList T)
  | [] => some fl
  | i :: is =>
    match fl.dealloc i with
    | some (_, fl') => deallocSeq fl' is
    | none => none

/-- Run a sequence of `alloc` calls, collecting the returned indices. -/
def allocSeq (fl : FreeList T) : List T → Option (List Idx × FreeList T)
  | [] => some ([], fl)
  | v :: vs =>
    match fl.alloc v with
    | some (i, fl') =>
      match allocSeq fl' vs with
      | some (is, fl'') => some (i :: is, fl'')
      | none => none
    | none => none

end FreeList

/-- `FreeChain slots head l`: following the free chain starting at `head`
through the `next_free` links visits exactly the positions in `l`, in order,
and terminates at `none`. -/
inductive FreeChain (slots : List (Slot T)) : Option Idx → List Idx → Prop
  | nil : FreeChain slots none []
  | cons (i : Idx) (nf : Option Idx) (l : List Idx)
      (hslot : slots[i.to_raw]? = some (Slot.Free nf))
      (htail : FreeChain slots nf l) :
      FreeChain slots (some i) (i :: l)

/-- `ChainSeg slots head l tail`: following the free chain from `head` for
`l.length` steps visits exactly the positions in `l` and the link out of the
last of them is `tail`. -/
inductive ChainSeg (slots : List (Slot T)) : Option Idx → List Idx → Option Idx → Prop
  | nil (o : Option Idx) : ChainSeg slots o [] o
  | cons (i : Idx) (nf t : Option Idx) (l : List Idx)
      (hslot : slots[i.to_raw]? = some (Slot.Free nf))
      (htail : ChainSeg slots nf l t) :
      ChainSeg slots (some i) (i :: l) t

/-- Invariant I2 of the spec: the set of positions reachable by following
`first_free → next_free → … → None` equals exactly the set of positions
whose slot is `Free` (and the chain is duplicate-free). -/
def FreeList.WF (fl : FreeList T) : Prop :=
  ∃ l, FreeChain fl.slots fl.first_free l ∧ l.Nodup ∧
    ∀ i : Idx, i ∈ l ↔ ∃ nf, fl.slots[i.to_raw]? = some (Slot.Free nf)

/-- States reachable from the default (empty) arena by successful `alloc`
calls and precondition-respecting (successful) `dealloc` calls. -/
inductive Reachable : FreeList T → Prop
  | empty : Reachable FreeList.default
  | alloc {fl fl' : FreeList T} {v : T} {i : Idx}
      (hr : Reachable fl) (h : fl.alloc v = some (i, fl')) : Reachable fl'
  | dealloc {fl fl' : FreeList T} {x : T} {i : Idx}
      (hr : Reachable fl) (h : fl.dealloc i = some (x, fl')) : Reachable fl'

/-! ### Helper lemmas about indices and chains -/

theorem Idx.eq_of_to_raw_eq {a b : Idx} (h : a.to_raw = b.to_raw) : a = b := by
  cases a; cases b; simpa [Idx.to_raw] using h

theorem Idx.to_raw_ne {a b : Idx} (h : a ≠ b) : a.to_raw ≠ b.to_raw :=
  fun he => h (Idx.eq_of_to_raw_eq he)

theorem freeChain_mem_free {T : Type} {slots : List (Slot T)} {o : Option Idx}
    {l : List Idx} (hc : FreeChain slots o l) {i : Idx} (hi : i ∈ l) :
    ∃ nf, slots[i.to_raw]? = some (Slot.Free nf) := by
  induction hc with
  | nil => cases hi
  | cons j nf l hslot htail ih =>
    rcases List.mem_cons.1 hi with rfl | hi
    · exact ⟨nf, hslot⟩
    · exact ih hi

theorem freeChain_set_of_ne {T : Type} {slots : List (Slot T)} {o : Option Idx}
    {l : List Idx} (hc : FreeChain slots o l) {p : Nat} (s : Slot T)
    (hp : ∀ j ∈ l, j.to_raw ≠ p) : FreeChain (slots.set p s) o l := by
  induction hc with
  | nil => exact FreeChain.nil
  | cons j nf l hslot htail ih =>
    refine FreeChain.cons j nf l ?_ (ih fun k hk => hp k (List.mem_cons_of_mem j hk))
    rw [List.getElem?_set_ne (Ne.symm (hp j (List.mem_cons_self j l)))]
    exact hslot

theorem freeChain_append {T : Type} {slots : List (Slot T)} {o : Option Idx}
    {l : List Idx} (hc : FreeChain slots o l) (s : Slot T) :
    FreeChain (slots ++ [s]) o l := by
  induction hc with
  | nil => exact FreeChain.nil
  | cons j nf l hslot htail ih =>
    have hlt : j.to_raw < slots.length := (List.getElem?_eq_some.1 hslot).1
    refine FreeChain.cons j nf l ?_ ih
    rw [List.getElem?_append_left hlt]
    exact hslot

theorem chainSeg_set_of_ne {T : Type} {slots : List (Slot T)} {o t : Option Idx}
    {l : List Idx} (hc : ChainSeg slots o l t) {p : Nat} (s : Slot T)
    (hp : ∀ j ∈ l, j.to_raw ≠ p) : ChainSeg (slots.set p s) o l t := by
  induction hc with
  | nil o => exact ChainSeg.nil o
  | cons j nf t l hslot htail ih =>
    refine ChainSeg.cons j nf t l ?_ (ih fun k hk => hp k (List.mem_cons_of_mem j hk))
    rw [List.getElem?_set_ne (Ne.symm (hp j (List.mem_cons_self j l)))]
    exact hslot

theorem chainSeg_trans {T : Type} {slots : List (Slot T)} {o t u : Option Idx}
    {l l' : List Idx} (hc : ChainSeg slots o l t) (hc' : ChainSeg slots t l' u) :
    ChainSeg slots o (l ++ l') u := by
  induction hc with
  | nil o => exact hc'
  | cons j nf t l hj htail ih => exact ChainSeg.cons j nf u (l ++ l') hj (ih hc')

theorem chainSeg_snoc {T : Type} {slots : List (Slot T)} {o t : Option Idx}
    {l : List Idx} {i : Idx} (hc : ChainSeg slots o l (some i))
    (hslot : slots[i.to_raw]? = some (Slot.Free t)) :
    ChainSeg slots o (l ++ [i]) t :=
  chainSeg_trans hc (ChainSeg.cons i t t [] hslot (ChainSeg.nil t))

/-! ### Inversion lemmas for `alloc` and `dealloc` -/

theorem dealloc_eq_some_iff {T : Type} {fl fl1 : FreeList T} {j : Idx} {x : T} :
    fl.dealloc j = some (x, fl1) ↔
    fl.slots[j.to_raw]? = some (Slot.Full x) ∧
    fl1 = { first_free := some j,
            slots := fl.slots.set j.to_raw (Slot.Free fl.first_free) } := by
  unfold FreeList.dealloc
  cases hj : fl.slots[j.to_raw]? with
  | none => simp
  | some s =>
    cases s with
    | Free nf => simp
    | Full y =>
      simp only [Option.some.injEq, Prod.mk.injEq, Slot.Full.injEq]
      constructor
      · rintro ⟨rfl, rfl⟩; exact ⟨rfl, rfl⟩
      · rintro ⟨rfl, rfl⟩; exact ⟨rfl, rfl⟩

theorem alloc_eq_some {T : Type} {fl fl1 : FreeList T} {v : T} {i : Idx}
    (h : fl.alloc v = some (i, fl1)) :
    (fl.first_free = none ∧ i = Idx.from_raw fl.slots.length ∧
       fl1 = { first_free := none, slots := fl.slots ++ [Slot.Full v] }) ∨
    (∃ nf, fl.first_free = some i ∧ fl.slots[i.to_raw]? = some (Slot.Free nf) ∧
       fl1 = { first_free := nf, slots := fl.slots.set i.to_raw (Slot.Full v) }) := by
  cases hff : fl.first_free with
  | none =>
    simp only [FreeList.alloc, hff, Option.some.injEq, Prod.mk.injEq] at h
    exact Or.inl ⟨rfl, h.1.symm, h.2.symm⟩
  | some idx =>
    simp only [FreeList.alloc, hff] at h
    cases hj : fl.slots[idx.to_raw]? with
    | none => rw [hj] at h; cases h
    | some s =>
      cases s with
      | Full y => rw [hj] at h; cases h
      | Free nf =>
        rw [hj] at h
        simp only [Option.some.injEq, Prod.mk.injEq] at h
        obtain ⟨rfl, rfl⟩ := h
        exact Or.inr ⟨nf, rfl, hj, rfl⟩

/-! ### The free chain after a sequence of deallocations -/

theorem deallocSeq_free_preserved {T : Type} :
    ∀ (is : List Idx) (fl fl' : FreeList T),
    FreeList.deallocSeq fl is = some fl' →
    ∀ (i : Idx) (nf : Option Idx), fl.slots[i.to_raw]? = some (Slot.Free nf) →
    fl'.slots[i.to_raw]? = some (Slot.Free nf) := by
  intro is
  induction is with
  | nil =>
    intro fl fl' hd i nf hi
    simp only [FreeList.deallocSeq, Option.some.injEq] at hd
    subst hd; exact hi
  | cons j is ih =>
    intro fl fl' hd i nf hi
    simp only [FreeList.deallocSeq] at hd
    cases hj : fl.dealloc j with
    | none => rw [hj] at hd; cases hd
    | some p =>
      obtain ⟨x, fl1⟩ := p
      rw [hj] at hd
      obtain ⟨hfull, rfl⟩ := dealloc_eq_some_iff.1 hj
      refine ih _ _ hd i nf ?_
      have hne : j.to_raw ≠ i.to_raw := by
        intro he; rw [he, hi] at hfull; cases hfull
      simpa [List.getElem?_set_ne hne] using hi

theorem deallocSeq_notMem_of_free {T : Type} :
    ∀ (is : List Idx) (fl fl' : FreeList T),
    FreeList.deallocSeq fl is = some fl' →
    ∀ (i : Idx) (nf : Option Idx), fl.slots[i.to_raw]? = some (Slot.Free nf) →
    i ∉ is := by
  intro is
  induction is with
  | nil => intro fl fl' hd i nf hi; simp
  | cons j is ih =>
    intro fl fl' hd i nf hi
    simp only [FreeList.deallocSeq] at hd
    cases hj : fl.dealloc j with
    | none => rw [hj] at hd; cases hd
    | some p =>
      obtain ⟨x, fl1⟩ := p
      rw [hj] at hd
      obtain ⟨hfull, rfl⟩ := dealloc_eq_some_iff.1 hj
      have hne : j ≠ i := by
        intro he; rw [he, hi] at hfull; cases hfull
      have hi1 : (fl.slots.set j.to_raw (Slot.Free fl.first_free))[i.to_raw]?
          = some (Slot.Free nf) := by
        rw [List.getElem?_set_ne (Idx.to_raw_ne hne)]; exact hi
      have hnotin := ih _ _ hd i nf hi1
      simp only [List.mem_cons, not_or]
      exact ⟨fun he => hne he.symm, hnotin⟩

theorem deallocSeq_nodup {T : Type} :
    ∀ (is : List Idx) (fl fl' : FreeList T),
    FreeList.deallocSeq fl is = some fl' → is.Nodup := by
  intro is
  induction is with
  | nil => intro fl fl' hd; exact List.nodup_nil
  | cons j is ih =>
    intro fl fl' hd
    simp only [FreeList.deallocSeq] at hd
    cases hj : fl.dealloc j with
    | none => rw [hj] at hd; cases hd
    | some p =>
      obtain ⟨x, fl1⟩ := p
      rw [hj] at hd
      obtain ⟨hfull, rfl⟩ := dealloc_eq_some_iff.1 hj
      have hlt : j.to_raw < fl.slots.length := (List.getElem?_eq_some.1 hfull).1
      have hfree : (fl.slots.set j.to_raw (Slot.Free fl.first_free))[j.to_raw]?
          = some (Slot.Free fl.first_free) :=
        List.getElem?_set_eq_of_lt _ hlt
      exact List.nodup_cons.2 ⟨deallocSeq_notMem_of_free is _ _ hd j _ hfree, ih _ _ hd⟩

theorem deallocSeq_chainSeg {T : Type} :
    ∀ (is : List Idx) (fl fl' : FreeList T),
    FreeList.deallocSeq fl is = some fl' →
    ChainSeg fl'.slots fl'.first_free is.reverse fl.first_free := by
  intro is
  induction is with
  | nil =>
    intro fl fl' hd
    simp only [FreeList.deallocSeq, Option.some.injEq] at hd
    subst hd; exact ChainSeg.nil _
  | cons j is ih =>
    intro fl fl' hd
    simp only [FreeList.deallocSeq] at hd
    cases hj : fl.dealloc j with
    | none => rw [hj] at hd; cases hd
    | some p =>
      obtain ⟨x, fl1⟩ := p
      rw [hj] at hd
      obtain ⟨hfull, rfl⟩ := dealloc_eq_some_iff.1 hj
      have hseg := ih _ _ hd
      have hlt : j.to_raw < fl.slots.length := (List.getElem?_eq_some.1 hfull).1
      have hfree : (fl.slots.set j.to_raw (Slot.Free fl.first_free))[j.to_raw]?
          = some (Slot.Free fl.first_free) :=
        List.getElem?_set_eq_of_lt _ hlt
      have hfree' : fl'.slots[j.to_raw]? = some (Slot.Free fl.first_free) :=
        deallocSeq_free_preserved is _ _ hd j _ hfree
      have := chainSeg_snoc hseg hfree'
      simpa [List.reverse_cons] using this

/-! ### Allocation along a chain segment, and growth with an empty chain -/

theorem allocSeq_of_chainSeg {T : Type} :
    ∀ (l : List Idx) (t ff : Option Idx) (slots : List (Slot T)) (vs : List T),
    ChainSeg slots ff l t → l.Nodup → vs.length = l.length →
    ∃ slots', FreeList.allocSeq ⟨ff, slots⟩ vs = some (l, ⟨t, slots'⟩) := by
  intro l
  induction l with
  | nil =>
    intro t ff slots vs hc hnd hlen
    have hvs : vs = [] := List.eq_nil_of_length_eq_zero (by simpa using hlen)
    subst hvs
    cases hc
    exact ⟨slots, rfl⟩
  | cons i l ih =>
    intro t ff slots vs hc hnd hlen
    cases vs with
    | nil => simp at hlen
    | cons v vs =>
      cases hc with
      | cons _ nf _ _ hslot htail =>
        have hnotin : i ∉ l := (List.nodup_cons.1 hnd).1
        have htail' : ChainSeg (slots.set i.to_raw (Slot.Full v)) nf l t :=
          chainSeg_set_of_ne htail _
            (fun j hj => Idx.to_raw_ne (fun he => hnotin (he ▸ hj)))
        obtain ⟨slots', hrec⟩ := ih t nf (slots.set i.to_raw (Slot.Full v)) vs htail'
          (List.nodup_cons.1 hnd).2 (by simpa using hlen)
        refine ⟨slots', ?_⟩
        simp only [FreeList.allocSeq, FreeList.alloc, hslot, hrec]

theorem allocSeq_no_free {T : Type} :
    ∀ (vs : List T) (slots : List (Slot T)),
    ∃ slots', FreeList.allocSeq ⟨none, slots⟩ vs
      = some ((List.range' slots.length vs.length).map Idx.from_raw, ⟨none, slots'⟩) := by
  intro vs
  induction vs with
  | nil => intro slots; exact ⟨slots, rfl⟩
  | cons v vs ih =>
    intro slots
    obtain ⟨slots', hrec⟩ := ih (slots ++ [Slot.Full v])
    refine ⟨slots', ?_⟩
    simp only [FreeList.allocSeq, FreeList.alloc, hrec]
    simp [List.range'_succ, List.length_append]

/-! ### Preservation of invariant I2 -/

theorem wf_default {T : Type} : (FreeList.default : FreeList T).WF := by
  refine ⟨[], FreeChain.nil, List.nodup_nil, ?_⟩
  intro i
  simp [FreeList.default]

theorem wf_dealloc {T : Type} {fl fl' : FreeList T} {i : Idx} {x : T}
    (hwf : fl.WF) (h : fl.dealloc i = some (x, fl')) : fl'.WF := by
  obtain ⟨hfull, rfl⟩ := dealloc_eq_some_iff.1 h
  obtain ⟨l, hchain, hnd, hiff⟩ := hwf
  have hnotin : i ∉ l := by
    intro hi
    obtain ⟨nf, hfree⟩ := (hiff i).1 hi
    rw [hfull] at hfree; cases hfree
  have hlt : i.to_raw < fl.slots.length := (List.getElem?_eq_some.1 hfull).1
  refine ⟨i :: l, ?_, List.nodup_cons.2 ⟨hnotin, hnd⟩, ?_⟩
  · refine FreeChain.cons i fl.first_free l (List.getElem?_set_eq_of_lt _ hlt) ?_
    exact freeChain_set_of_ne hchain _
      (fun j hj => Idx.to_raw_ne (fun he => hnotin (he ▸ hj)))
  · intro k
    constructor
    · intro hk
      rcases List.mem_cons.1 hk with rfl | hk
      · exact ⟨fl.first_free, List.getElem?_set_eq_of_lt _ hlt⟩
      · obtain ⟨nf, hfree⟩ := (hiff k).1 hk
        have hne : k.to_raw ≠ i.to_raw :=
          Idx.to_raw_ne (fun he => hnotin (he ▸ hk))
        exact ⟨nf, by rw [List.getElem?_set_ne (Ne.symm hne)]; exact hfree⟩
    · rintro ⟨nf, hfree⟩
      by_cases hk : k.to_raw = i.to_raw
      · have hki : k = i := Idx.eq_of_to_raw_eq hk
        exact hki ▸ List.mem_cons_self i l
      · rw [List.getElem?_set_ne (Ne.symm hk)] at hfree
        exact List.mem_cons_of_mem _ ((hiff k).2 ⟨nf, hfree⟩)

theorem wf_alloc {T : Type} {fl fl' : FreeList T} {i : Idx} {v : T}
    (hwf : fl.WF) (h : fl.alloc v = some (i, fl')) : fl'.WF := by
  obtain ⟨l, hchain, hnd, hiff⟩ := hwf
  rcases alloc_eq_some h with ⟨hff, hi, rfl⟩ | ⟨nf, hff, hj, rfl⟩
  · rw [hff] at hchain
    cases hchain
    refine ⟨[], FreeChain.nil, List.nodup_nil, ?_⟩
    intro k
    simp only [List.not_mem_nil, false_iff, not_exists]
    intro nf hfree
    rcases lt_trichotomy k.to_raw fl.slots.length with hlt | heq | hgt
    · rw [List.getElem?_append_left hlt] at hfree
      exact absurd ((hiff k).2 ⟨nf, hfree⟩) (List.not_mem_nil k)
    · rw [heq, List.getElem?_concat_length] at hfree; cases hfree
    · rw [List.getElem?_eq_none (by simp; omega)] at hfree; cases hfree
  · rw [hff] at hchain
    cases hchain with
    | cons _ nf0 l' hslot htail =>
      have hnf : nf0 = nf := by
        have h2 := hslot.symm.trans hj
        simpa using h2
      subst hnf
      have hnotin : i ∉ l' := (List.nodup_cons.1 hnd).1
      have hlt : i.to_raw < fl.slots.length := (List.getElem?_eq_some.1 hj).1
      refine ⟨l', ?_, (List.nodup_cons.1 hnd).2, ?_⟩
      · exact freeChain_set_of_ne htail _
          (fun j hjl => Idx.to_raw_ne (fun he => hnotin (he ▸ hjl)))
      · intro k
        constructor
        · intro hk
          have hne : k.to_raw ≠ i.to_raw :=
            Idx.to_raw_ne (fun he => hnotin (he ▸ hk))
          obtain ⟨nf1, hfree⟩ := (hiff k).1 (List.mem_cons_of_mem _ hk)
          exact ⟨nf1, by rw [List.getElem?_set_ne (Ne.symm hne)]; exact hfree⟩
        · rintro ⟨nf1, hfree⟩
          by_cases hk : k.to_raw = i.to_raw
          · rw [hk, List.getElem?_set_eq_of_lt _ hlt] at hfree
            cases hfree
          · rw [List.getElem?_set_ne (Ne.symm hk)] at hfree
            have hmem := (hiff k).2 ⟨nf1, hfree⟩
            rcases List.mem_cons.1 hmem with rfl | hmem
            · exact absurd rfl hk
            · exact hmem

theorem reachable_wf {T : Type} {fl : FreeList T} (hr : Reachable fl) : fl.WF := by
  induction hr with
  | empty => exact wf_default
  | alloc hr h ih => exact wf_alloc ih h
  | dealloc hr h ih => exact wf_dealloc ih h

/-! ### Claim theorems -/

/-- C1: LIFO reuse. For every arena state reachable from the empty arena by
valid operations, after calling `dealloc` on live indices `i1, …, ik` in that
order (so the free-chain head is `ik`), the next `k` calls to `alloc` return
exactly `ik, …, i1` in that reverse order. -/
theorem lifo_reuse {T : Type} (fl fl' : FreeList T) (is : List Idx) (vs : List T)
    (_hr : Reachable fl) (hd : FreeList.deallocSeq fl is = some fl')
    (hk : vs.length = is.length) :
    ∃ fl'', FreeList.allocSeq fl' vs = some (is.reverse, fl'') := by
  have hseg := deallocSeq_chainSeg is fl fl' hd
  have hnd : is.reverse.Nodup := List.nodup_reverse.2 (deallocSeq_nodup is fl fl' hd)
  obtain ⟨slots', hres⟩ := allocSeq_of_chainSeg is.reverse fl.first_free
    fl'.first_free fl'.slots vs hseg hnd (by simpa using hk)
  exact ⟨⟨fl.first_free, slots'⟩, hres⟩

/-- Witness for C1: free indices 0 then 1 on a reachable two-slot arena, and
the next two allocations return 1 then 0. -/
theorem lifo_reuse_witness :
    ∃ fl'', FreeList.allocSeq
      ({ first_free := some (Idx.from_raw 1),
         slots := [Slot.Free none, Slot.Free (some (Idx.from_raw 0))] } : FreeList Nat)
      [7, 8]
      = some ([Idx.from_raw 1, Idx.from_raw 0], fl'') := by
  have h1 : (FreeList.default : FreeList Nat).alloc 10
      = some (Idx.from_raw 0, { first_free := none, slots := [Slot.Full 10] }) := by
    decide
  have r1 : Reachable ({ first_free := none, slots := [Slot.Full 10] } : FreeList Nat) :=
    Reachable.alloc Reachable.empty h1
  have h2 : ({ first_free := none, slots := [Slot.Full 10] } : FreeList Nat).alloc 20
      = some (Idx.from_raw 1, { first_free := none, slots := [Slot.Full 10, Slot.Full 20] }) := by
    decide
  have r2 : Reachable ({ first_free := none,
                         slots := [Slot.Full 10, Slot.Full 20] } : FreeList Nat) :=
    Reachable.alloc r1 h2
  have hd : FreeList.deallocSeq
      ({ first_free := none, slots := [Slot.Full 10, Slot.Full 20] } : FreeList Nat)
      [Idx.from_raw 0, Idx.from_raw 1]
      = some { first_free := some (Idx.from_raw 1),
               slots := [Slot.Free none, Slot.Free (some (Idx.from_raw 0))] } := by
    decide
  have h := lifo_reuse _ _ [Idx.from_raw 0, Idx.from_raw 1] [7, 8] r2 hd (by decide)
  simpa using h

/-- C2: double-free is fatal and does not corrupt state. `dealloc` on an
index whose slot is already `Free` aborts (yields no successor state, so the
free chain is not silently modified); in particular a second `dealloc` on
the same index with no intervening `alloc` aborts. -/
theorem double_free_fatal {T : Type} (fl : FreeList T) (idx : Idx) :
    (∀ nf, fl.slots[idx.to_raw]? = some (Slot.Free nf) → fl.dealloc idx = none)
    ∧ (∀ (x : T) (fl' : FreeList T), fl.dealloc idx = some (x, fl') →
        fl'.dealloc idx = none) := by
  constructor
  · intro nf h
    simp [FreeList.dealloc, h]
  · intro x fl' h
    obtain ⟨hfull, rfl⟩ := dealloc_eq_some_iff.1 h
    have hlt : idx.to_raw < fl.slots.length := (List.getElem?_eq_some.1 hfull).1
    have hfree : (fl.slots.set idx.to_raw (Slot.Free fl.first_free))[idx.to_raw]?
        = some (Slot.Free fl.first_free) :=
      List.getElem?_set_eq_of_lt _ hlt
    simp [FreeList.dealloc, hfree]

/-- Witness for C2: deallocating index 0 twice in a row on a one-slot arena,
and deallocating an already-`Free` slot, both abort. -/
theorem double_free_fatal_witness :
    FreeList.dealloc ({ first_free := some (Idx.from_raw 0),
                        slots := [Slot.Free none] } : FreeList Nat) (Idx.from_raw 0) = none
    ∧ FreeList.dealloc ({ first_free := some (Idx.from_raw 1),
                          slots := [Slot.Full 5, Slot.Free none] } : FreeList Nat)
        (Idx.from_raw 1) = none := by
  constructor
  · exact (double_free_fatal
      ({ first_free := some (Idx.from_raw 0), slots := [Slot.Free none] } : FreeList Nat)
      (Idx.from_raw 0)).1 none (by decide)
  · exact (double_free_fatal
      ({ first_free := none, slots := [Slot.Full 5, Slot.Full 6] } : FreeList Nat)
      (Idx.from_raw 1)).2 6
      { first_free := some (Idx.from_raw 1), slots := [Slot.Full 5, Slot.Free none] }
      (by decide)

/-- C3: sequential growth. Starting from the default (empty) arena, with no
intervening `dealloc`, the Nth `alloc` call returns the index with raw value
N−1 (so a run of N allocations returns `0, 1, …, N−1`); and whenever the
free chain is empty, `alloc` returns the index equal to the storage length
at the time of the call. -/
theorem sequential_growth {T : Type} (vs : List T) :
    (∃ fl', FreeList.allocSeq (FreeList.default : FreeList T) vs
        = some ((List.range vs.length).map Idx.from_raw, fl'))
    ∧ (∀ (fl : FreeList T) (v : T), fl.first_free = none →
        ∃ fl', fl.alloc v = some (Idx.from_raw fl.slots.length, fl')) := by
  constructor
  · obtain ⟨slots', h⟩ := allocSeq_no_free vs ([] : List (Slot T))
    refine ⟨⟨none, slots'⟩, ?_⟩
    simpa [FreeList.default, List.range_eq_range'] using h
  · intro fl v hff
    refine ⟨⟨none, fl.slots ++ [Slot.Full v]⟩, ?_⟩
    simp [FreeList.alloc, hff]

/-- Witness for C3: three allocations on the empty arena return indices
0, 1, 2, and an alloc on a one-slot arena with empty chain returns index 1. -/
theorem sequential_growth_witness :
    (∃ fl', FreeList.allocSeq (FreeList.default : FreeList Nat) [5, 6, 7]
        = some ([Idx.from_raw 0, Idx.from_raw 1, Idx.from_raw 2], fl'))
    ∧ (∃ fl', FreeList.alloc
        ({ first_free := none, slots := [Slot.Full 9] } : FreeList Nat) 4
        = some (Idx.from_raw 1, fl')) := by
  constructor
  · have h := (sequential_growth [(5:Nat), 6, 7]).1
    simpa using h
  · have h := (sequential_growth [(5:Nat)]).2
      ({ first_free := none, slots := [Slot.Full 9] } : FreeList Nat) 4 rfl
    simpa using h

/-- C4: round-trip. For every value `v` and every arena state in which
`alloc` succeeds, immediately after `idx := alloc(v)`, indexing the arena at
`idx` yields exactly `v`. -/
theorem alloc_round_trip {T : Type} (fl fl' : FreeList T) (v : T) (i : Idx)
    (h : fl.alloc v = some (i, fl')) : fl'.index i = some v := by
  rcases alloc_eq_some h with ⟨hff, rfl, rfl⟩ | ⟨nf, hff, hj, rfl⟩
  · have hlast : (fl.slots ++ [Slot.Full v])[fl.slots.length]? = some (Slot.Full v) :=
      List.getElem?_concat_length _ _
    simp [FreeList.index, Idx.from_raw, Idx.to_raw, hlast]
  · have hlt : i.to_raw < fl.slots.length := (List.getElem?_eq_some.1 hj).1
    have hset : (fl.slots.set i.to_raw (Slot.Full v))[i.to_raw]? = some (Slot.Full v) :=
      List.getElem?_set_eq_of_lt _ hlt
    simp [FreeList.index, hset]

/-- Witness for C4 at a concrete arena: allocating 42 into the empty arena
and looking the returned index up yields 42. -/
theorem alloc_round_trip_witness :
    FreeList.index ({ first_free := none, slots := [Slot.Full 42] } : FreeList Nat)
      (Idx.from_raw 0) = some 42 :=
  alloc_round_trip FreeList.default
    { first_free := none, slots := [Slot.Full 42] } 42 (Idx.from_raw 0) (by decide)

/-- C5: dealloc postcondition and ownership transfer. For every index whose
slot holds `Full { item }`, `dealloc` returns exactly `item`, overwrites the
slot with `Free { next_free: old_first_free }`, sets `first_free` to
`Some(idx)`, and afterwards that slot no longer yields `item` via lookup. -/
theorem dealloc_postcondition {T : Type} (fl : FreeList T) (idx : Idx) (item : T)
    (h : fl.slots[idx.to_raw]? = some (Slot.Full item)) :
    fl.dealloc idx = some (item,
      { first_free := some idx,
        slots := fl.slots.set idx.to_raw (Slot.Free fl.first_free) })
    ∧ ∀ fl', fl.dealloc idx = some (item, fl') → fl'.index idx = none := by
  have hmain : fl.dealloc idx = some (item,
      { first_free := some idx,
        slots := fl.slots.set idx.to_raw (Slot.Free fl.first_free) }) := by
    simp [FreeList.dealloc, h]
  refine ⟨hmain, ?_⟩
  intro fl' h'
  rw [hmain] at h'
  simp only [Option.some.injEq, Prod.mk.injEq, true_and] at h'
  subst h'
  have hlt : idx.to_raw < fl.slots.length := (List.getElem?_eq_some.1 h).1
  have hfree : (fl.slots.set idx.to_raw (Slot.Free fl.first_free))[idx.to_raw]?
      = some (Slot.Free fl.first_free) :=
    List.getElem?_set_eq_of_lt _ hlt
  simp [FreeList.index, hfree]

/-- Witness for C5: deallocating index 0 from a one-slot arena holding 42
returns 42 and leaves a `Free` slot that lookup no longer resolves. -/
theorem dealloc_postcondition_witness :
    FreeList.dealloc ({ first_free := none, slots := [Slot.Full 42] } : FreeList Nat)
      (Idx.from_raw 0)
      = some (42, { first_free := some (Idx.from_raw 0), slots := [Slot.Free none] })
    ∧ FreeList.index ({ first_free := some (Idx.from_raw 0),
                        slots := [Slot.Free none] } : FreeList Nat) (Idx.from_raw 0)
      = none := by
  have h := dealloc_postcondition
    ({ first_free := none, slots := [Slot.Full 42] } : FreeList Nat)
    (Idx.from_raw 0) 42 (by decide)
  exact ⟨by simpa using h.1,
    h.2 { first_free := some (Idx.from_raw 0), slots := [Slot.Free none] } (by decide)⟩

/-- C6: free-chain invariant I2. For every arena state reachable from the
default (empty) arena by successful `alloc` and precondition-respecting
`dealloc` calls, the set of positions reachable by following `first_free`
through the `next_free` links equals exactly the set of positions whose
slot is `Free`; the invariant is preserved by every operation. -/
theorem free_chain_invariant {T : Type} :
    (∀ fl : FreeList T, Reachable fl → fl.WF)
    ∧ (∀ (fl fl' : FreeList T) (v : T) (i : Idx), fl.WF →
        fl.alloc v = some (i, fl') → fl'.WF)
    ∧ (∀ (fl fl' : FreeList T) (x : T) (i : Idx), fl.WF →
        fl.dealloc i = some (x, fl') → fl'.WF) :=
  ⟨fun _ hr => reachable_wf hr, fun _ _ _ _ hwf h => wf_alloc hwf h,
   fun _ _ _ _ hwf h => wf_dealloc hwf h⟩

/-- Witness for C6 at the reachable state obtained by one alloc and one
dealloc, whose free chain holds exactly position 0. -/
theorem free_chain_invariant_witness :
    FreeList.WF ({ first_free := some (Idx.from_raw 0),
                   slots := [Slot.Free none] } : FreeList Nat) := by
  have h1 : (FreeList.default : FreeList Nat).alloc 10
      = some (Idx.from_raw 0, { first_free := none, slots := [Slot.Full 10] }) := by
    decide
  have r1 : Reachable ({ first_free := none, slots := [Slot.Full 10] } : FreeList Nat) :=
    Reachable.alloc Reachable.empty h1
  have h2 : ({ first_free := none, slots := [Slot.Full 10] } : FreeList Nat).dealloc
        (Idx.from_raw 0)
      = some (10, { first_free := some (Idx.from_raw 0), slots := [Slot.Free none] }) := by
    decide
  exact free_chain_invariant.1 _ (Reachable.dealloc r1 h2)

/-- C7: free-chain corruption on alloc is fatal and unreachable. If the slot
at the free chain's head is `Full`, `alloc` aborts; and in every state
reachable from the empty arena by valid operations the chain's head slot is
`Free`, so the error branch is never taken. -/
theorem alloc_corruption_fatal {T : Type} (fl : FreeList T) (idx : Idx) :
    (∀ (v x : T), fl.first_free = some idx →
        fl.slots[idx.to_raw]? = some (Slot.Full x) → fl.alloc v = none)
    ∧ (Reachable fl → fl.first_free = some idx →
        ∃ nf, fl.slots[idx.to_raw]? = some (Slot.Free nf)) := by
  constructor
  · intro v x hff hj
    simp [FreeList.alloc, hff, hj]
  · intro hr hff
    obtain ⟨l, hchain, hnd, hiff⟩ := reachable_wf hr
    rw [hff] at hchain
    cases hchain with
    | cons _ nf l' hslot htail => exact ⟨nf, hslot⟩

/-- Witness for C7: alloc aborts on a corrupted chain whose head slot is
`Full`, and on the reachable state with chain head 0 the head slot is
`Free`. -/
theorem alloc_corruption_fatal_witness :
    FreeList.alloc ({ first_free := some (Idx.from_raw 0),
                      slots := [Slot.Full 3] } : FreeList Nat) 5 = none
    ∧ ∃ nf, ({ first_free := some (Idx.from_raw 0),
               slots := [Slot.Free none] } : FreeList Nat).slots[(Idx.from_raw 0).to_raw]?
        = some (Slot.Free nf) := by
  constructor
  · exact (alloc_corruption_fatal
      ({ first_free := some (Idx.from_raw 0), slots := [Slot.Full 3] } : FreeList Nat)
      (Idx.from_raw 0)).1 5 3 rfl (by decide)
  · have h1 : (FreeList.default : FreeList Nat).alloc 10
        = some (Idx.from_raw 0, { first_free := none, slots := [Slot.Full 10] }) := by
      decide
    have r1 : Reachable ({ first_free := none, slots := [Slot.Full 10] } : FreeList Nat) :=
      Reachable.alloc Reachable.empty h1
    have h2 : ({ first_free := none, slots := [Slot.Full 10] } : FreeList Nat).dealloc
          (Idx.from_raw 0)
        = some (10, { first_free := some (Idx.from_raw 0), slots := [Slot.Free none] }) := by
      decide
    exact (alloc_corruption_fatal
      ({ first_free := some (Idx.from_raw 0), slots := [Slot.Free none] } : FreeList Nat)
      (Idx.from_raw 0)).2 (Reachable.dealloc r1 h2) rfl

/-- C8: storage length monotonicity. `dealloc` leaves the length unchanged
(the freed slot is retained as a `Free` placeholder); `alloc` increases the
length by exactly one when `first_free` is `None` and leaves it unchanged
when a free slot is reused — so no operation ever shrinks the storage. -/
theorem storage_length_monotone {T : Type} (fl : FreeList T) :
    (∀ (idx : Idx) (x : T) (fl' : FreeList T), fl.dealloc idx = some (x, fl') →
        fl'.slots.length = fl.slots.length)
    ∧ (∀ (v : T) (i : Idx) (fl' : FreeList T), fl.first_free = none →
        fl.alloc v = some (i, fl') → fl'.slots.length = fl.slots.length + 1)
    ∧ (∀ (v : T) (i : Idx) (fl' : FreeList T) (j : Idx), fl.first_free = some j →
        fl.alloc v = some (i, fl') → fl'.slots.length = fl.slots.length) := by
  refine ⟨?_, ?_, ?_⟩
  · intro idx x fl' h
    obtain ⟨hfull, rfl⟩ := dealloc_eq_some_iff.1 h
    simp
  · intro v i fl' hff h
    rcases alloc_eq_some h with ⟨_, _, rfl⟩ | ⟨nf, hff', _, _⟩
    · simp
    · rw [hff] at hff'; cases hff'
  · intro v i fl' j hff h
    rcases alloc_eq_some h with ⟨hff', _, _⟩ | ⟨nf, _, _, rfl⟩
    · rw [hff] at hff'; cases hff'
    · simp

/-- Witness for C8: dealloc keeps a two-slot arena at length 2, a fresh
alloc grows length 1 to 2, and a reusing alloc keeps length 1. -/
theorem storage_length_monotone_witness :
    (({ first_free := some (Idx.from_raw 0),
        slots := [Slot.Free none, Slot.Full 20] } : FreeList Nat)).slots.length
      = (({ first_free := none,
            slots := [Slot.Full 10, Slot.Full 20] } : FreeList Nat)).slots.length
    ∧ (({ first_free := none,
          slots := [Slot.Full 10, Slot.Full 20] } : FreeList Nat)).slots.length
      = (({ first_free := none, slots := [Slot.Full 10] } : FreeList Nat)).slots.length + 1
    ∧ (({ first_free := none, slots := [Slot.Full 30] } : FreeList Nat)).slots.length
      = (({ first_free := some (Idx.from_raw 0),
            slots := [Slot.Free none] } : FreeList Nat)).slots.length := by
  refine ⟨?_, ?_, ?_⟩
  · exact (storage_length_monotone
      ({ first_free := none, slots := [Slot.Full 10, Slot.Full 20] } : FreeList Nat)).1
      (Idx.from_raw 0) 10
      { first_free := some (Idx.from_raw 0), slots := [Slot.Free none, Slot.Full 20] }
      (by decide)
  · exact (storage_length_monotone
      ({ first_free := none, slots := [Slot.Full 10] } : FreeList Nat)).2.1
      20 (Idx.from_raw 1)
      { first_free := none, slots := [Slot.Full 10, Slot.Full 20] } rfl (by decide)
  · exact (storage_length_monotone
      ({ first_free := some (Idx.from_raw 0), slots := [Slot.Free none] } : FreeList Nat)).2.2
      30 (Idx.from_raw 0)
      { first_free := none, slots := [Slot.Full 30] } (Idx.from_raw 0) rfl (by decide)

/-- C9: out-of-range dealloc fails fast. For every index whose raw position
is at least the storage length, `dealloc` hits the bounds check and aborts
(yields no successor state): it never wraps the position or modifies any
slot. -/
theorem out_of_range_dealloc_fatal {T : Type} (fl : FreeList T) (idx : Idx)
    (h : fl.slots.length ≤ idx.to_raw) : fl.dealloc idx = none := by
  have hn : fl.slots[idx.to_raw]? = none := List.getElem?_eq_none h
  simp [FreeList.dealloc, hn]

/-- Witness for C9: deallocating raw position 5 on a one-slot arena aborts. -/
theorem out_of_range_dealloc_fatal_witness :
    FreeList.dealloc ({ first_free := none, slots := [Slot.Full 10] } : FreeList Nat)
      (Idx.from_raw 5) = none :=
  out_of_range_dealloc_fatal
    ({ first_free := none, slots := [Slot.Full 10] } : FreeList Nat)
    (Idx.from_raw 5) (by decide)

/-- C10: frame property of `alloc` and `dealloc`. A successful `dealloc idx`
modifies only the slot at `idx` and `first_free` — every other position's
slot contents are unchanged; likewise a successful `alloc` that reuses the
free slot at position `idx` returns `idx` and leaves every other position's
slot unchanged. -/
theorem frame_property {T : Type} (fl : FreeList T) (idx : Idx) :
    (∀ (x : T) (fl' : FreeList T), fl.dealloc idx = some (x, fl') →
        fl'.first_free = some idx ∧
        ∀ p, p ≠ idx.to_raw → fl'.slots[p]? = fl.slots[p]?)
    ∧ (∀ (v : T) (i : Idx) (fl' : FreeList T), fl.first_free = some idx →
        fl.alloc v = some (i, fl') →
        i = idx ∧ ∀ p, p ≠ idx.to_raw → fl'.slots[p]? = fl.slots[p]?) := by
  constructor
  · intro x fl' h
    obtain ⟨hfull, rfl⟩ := dealloc_eq_some_iff.1 h
    exact ⟨rfl, fun p hp => List.getElem?_set_ne (Ne.symm hp)⟩
  · intro v i fl' hff h
    rcases alloc_eq_some h with ⟨hff', _, _⟩ | ⟨nf, hff', hj, rfl⟩
    · rw [hff] at hff'; cases hff'
    · rw [hff] at hff'
      have hii : idx = i := Option.some.inj hff'
      subst hii
      exact ⟨rfl, fun p hp => List.getElem?_set_ne (Ne.symm hp)⟩

/-- Witness for C10: on a two-slot arena, dealloc of index 0 and a reusing
alloc at index 0 both leave the slot at position 1 unchanged. -/
theorem frame_property_witness :
    (({ first_free := some (Idx.from_raw 0),
        slots := [Slot.Free none, Slot.Full 20] } : FreeList Nat).first_free
        = some (Idx.from_raw 0)
      ∧ ∀ p, p ≠ (Idx.from_raw 0).to_raw →
        ([Slot.Free none, Slot.Full (20:Nat)] : List (Slot Nat))[p]?
          = ([Slot.Full 10, Slot.Full 20] : List (Slot Nat))[p]?)
    ∧ (Idx.from_raw 0 = Idx.from_raw 0
      ∧ ∀ p, p ≠ (Idx.from_raw 0).to_raw →
        ([Slot.Full 30, Slot.Full (20:Nat)] : List (Slot Nat))[p]?
          = ([Slot.Free none, Slot.Full 20] : List (Slot Nat))[p]?) := by
  constructor
  · exact (frame_property
      ({ first_free := none, slots := [Slot.Full 10, Slot.Full 20] } : FreeList Nat)
      (Idx.from_raw 0)).1 10
      { first_free := some (Idx.from_raw 0), slots := [Slot.Free none, Slot.Full 20] }
      (by decide)
  · exact (frame_property
      ({ first_free := some (Idx.from_raw 0),
         slots := [Slot.Free none, Slot.Full 20] } : FreeList Nat)
      (Idx.from_raw 0)).2 30 (Idx.from_raw 0)
      { first_free := none, slots := [Slot.Full 30, Slot.Full 20] } rfl (by decide)
